import Mathlib

/-!
Verification of the KubeForge agent (`src/index.ts`): a shallow embedding of
its manifest-diff engine, cleaning functions, apply-batch reconciler and
control-loop reporting, with theorems checking the specification claims.
-/

set_option maxHeartbeats 1000000

/-- A parsed structured document (the JSON/YAML value space the agent works
on): null, booleans, numbers (integers; the manifests in scope carry no
floats), strings, arrays and key-ordered objects, as produced by the
YAML codec. -/
inductive Doc where
  | nul : Doc
  | bool (b : Bool) : Doc
  | num (n : Int) : Doc
  | str (s : String) : Doc
  | arr (xs : List Doc) : Doc
  | obj (fs : List (String × Doc)) : Doc

namespace Doc

/-- Strong induction on documents by size, the workhorse for recursing
through the nested arrays and objects. -/
theorem strongOn {P : Doc → Prop}
    (h : ∀ d : Doc, (∀ x : Doc, sizeOf x < sizeOf d → P x) → P d) :
    ∀ d : Doc, P d
  | d => h d (fun x _ => strongOn h x)
termination_by d => sizeOf d

mutual

/-- Structural equality test on documents. -/
def beq : Doc → Doc → Bool
  | .nul, .nul => true
  | .bool a, .bool b => a == b
  | .num a, .num b => a == b
  | .str a, .str b => a == b
  | .arr xs, .arr ys => beqList xs ys
  | .obj fs, .obj gs => beqFields fs gs
  | _, _ => false
termination_by a => sizeOf a

/-- Pointwise equality test on document lists. -/
def beqList : List Doc → List Doc → Bool
  | [], [] => true
  | x :: xs, y :: ys => beq x y && beqList xs ys
  | _, _ => false
termination_by xs => sizeOf xs

/-- Pointwise equality test on field lists. -/
def beqFields : List (String × Doc) → List (String × Doc) → Bool
  | [], [] => true
  | (k, v) :: fs, (k', v') :: gs => k == k' && beq v v' && beqFields fs gs
  | _, _ => false
termination_by fs => sizeOf fs

end

theorem beqList_eq : ∀ {xs ys : List Doc},
    (∀ x ∈ xs, ∀ y, beq x y = true → x = y) → beqList xs ys = true → xs = ys := by
  intro xs
  induction xs with
  | nil => intro ys _ h; cases ys with
    | nil => rfl
    | cons y ys => simp [beqList] at h
  | cons x xs ih =>
    intro ys hx h
    cases ys with
    | nil => simp [beqList] at h
    | cons y ys =>
      simp only [beqList, Bool.and_eq_true] at h
      have h1 := hx x (by simp) y h.1
      have h2 := ih (fun a ha b => hx a (by simp [ha]) b) h.2
      rw [h1, h2]

theorem beqFields_eq : ∀ {fs gs : List (String × Doc)},
    (∀ p ∈ fs, ∀ y, beq p.2 y = true → p.2 = y) → beqFields fs gs = true → fs = gs := by
  intro fs
  induction fs with
  | nil => intro gs _ h; cases gs with
    | nil => rfl
    | cons g gs => simp [beqFields] at h
  | cons p fs ih =>
    intro gs hp h
    obtain ⟨k, v⟩ := p
    cases gs with
    | nil => simp [beqFields] at h
    | cons q gs =>
      obtain ⟨k', v'⟩ := q
      simp only [beqFields, Bool.and_eq_true, beq_iff_eq] at h
      have h1 : v = v' := hp (k, v) (by simp) v' h.1.2
      have h2 := ih (fun a ha b => hp a (by simp [ha]) b) h.2
      rw [h.1.1, h1, h2]

theorem eq_of_beq : ∀ a b : Doc, beq a b = true → a = b := by
  intro a
  induction a using strongOn with
  | h a ih =>
    intro b h
    cases a <;> cases b <;> simp_all [beq]
    · exact beqList_eq
        (fun x hx y hy => ih x (by have := List.sizeOf_lt_of_mem hx; simp; omega) y hy) h
    · exact beqFields_eq
        (fun p hp y hy => ih p.2
          (by have := List.sizeOf_lt_of_mem hp; obtain ⟨k, v⟩ := p; simp at *; omega) y hy) h

theorem beq_refl : ∀ a : Doc, beq a a = true := by
  intro a
  induction a using strongOn with
  | h a ih =>
    cases a with
    | arr xs =>
      simp only [beq]
      induction xs with
      | nil => simp [beqList]
      | cons x xs ihl =>
        simp only [beqList, Bool.and_eq_true]
        have hx : x ∈ x :: xs := by simp
        have hs := List.sizeOf_lt_of_mem hx
        refine ⟨ih x (by simp; omega), ?_⟩
        exact ihl (fun z hz => ih z (by simp at hz ⊢; omega))
    | obj fs =>
      simp only [beq]
      induction fs with
      | nil => simp [beqFields]
      | cons p fs ihl =>
        obtain ⟨k, v⟩ := p
        simp only [beqFields, Bool.and_eq_true, beq_iff_eq]
        refine ⟨⟨by simp, ih v (by simp; omega)⟩, ?_⟩
        exact ihl (fun z hz => ih z (by simp at hz ⊢; omega))
    | nul => simp [beq]
    | bool b => simp [beq]
    | num n => simp [beq]
    | str s => simp [beq]

instance : DecidableEq Doc := fun a b =>
  decidable_of_iff (beq a b = true)
    ⟨eq_of_beq a b, fun h => by rw [h]; exact beq_refl b⟩

/-- JS truthiness of a value. -/
def truthy : Doc → Bool
  | .nul => false
  | .bool b => b
  | .num n => n != 0
  | .str s => s ≠ ""
  | .arr _ => true
  | .obj _ => true

/-- `typeof v === 'object' && v`: a non-null object or array. -/
def objLike : Doc → Bool
  | .obj _ => true
  | .arr _ => true
  | _ => false

/-- A primitive (non-object, non-array) value. -/
def isScalar : Doc → Bool
  | .obj _ => false
  | .arr _ => false
  | _ => true

end Doc

/-- First-match association lookup, the JS property read `o[k]` on the
embedded field list. -/
def findVal (k : String) : List (String × Doc) → Option Doc
  | [] => none
  | (k', v) :: rest => if k' = k then some v else findVal k rest

theorem sizeOf_findVal {k : String} : ∀ {fs : List (String × Doc)} {v : Doc},
    findVal k fs = some v → sizeOf v < sizeOf fs := by
  intro fs
  induction fs with
  | nil => intro v h; simp [findVal] at h
  | cons p rest ih =>
    intro v h
    obtain ⟨k', v'⟩ := p
    simp only [findVal] at h
    split at h
    · cases h; simp; omega
    · have := ih h; simp; omega

/-- Keys of an object's field list. -/
def keysOf (fs : List (String × Doc)) : List String := fs.map Prod.fst

/-- `Set` insertion step: append the key if not already present. -/
def addKey (seen : List String) (k : String) : List String :=
  if k ∈ seen then seen else seen ++ [k]

/-- `new Set([...keysA, ...keysB])` in iteration order: the keys deduplicated
keeping first occurrences. -/
def keyUnion (ks : List String) : List String := ks.foldl addKey []

/-- `delete o[k]`: remove the binding for key `k`. -/
def delKey (k : String) (fs : List (String × Doc)) : List (String × Doc) :=
  fs.filter (fun p => p.1 ≠ k)

/-- JS assignment to an existing key: replace the first binding of `k`,
keeping its position. -/
def setVal (k : String) (v : Doc) : List (String × Doc) → List (String × Doc)
  | [] => []
  | (k', v') :: rest =>
    if k' = k then (k', v) :: rest else (k', v') :: setVal k v rest

/-- JS property assignment `o[k] = v`: overwrite in place when the key
exists, otherwise append it at the end (JS insertion order). -/
def setProp (k : String) (v : Doc) (fs : List (String × Doc)) : List (String × Doc) :=
  if (findVal k fs).isSome then setVal k v fs else fs ++ [(k, v)]

/-- The index-keyed fields produced by spreading an array into an object
(`{...arr}` yields keys "0", "1", ...). -/
def indexedFields (xs : List Doc) : List (String × Doc) :=
  xs.enum.map (fun p => (toString p.1, p.2))

/-- Own enumerable fields as seen by object spread `{...v}`: an object's
fields, an array's index-keyed elements, nothing for primitives. -/
def spreadFields : Doc → List (String × Doc)
  | .obj fs => fs
  | .arr xs => indexedFields xs
  | _ => []

/-- JS property read `d.k` (an `Option` because the property may be absent
or the receiver not an object). -/
def jsProp (d : Doc) (k : String) : Option Doc :=
  match d with
  | .obj fs => findVal k fs
  | _ => none

/-- JS optional-chained property read `d?.k`. -/
def optProp (d : Option Doc) (k : String) : Option Doc :=
  match d with
  | none => none
  | some .nul => none
  | some v => jsProp v k

/-- JS `Object.keys(v).length`: field count for objects, element count for
arrays, character count for strings, zero for other primitives. -/
def jsKeysLen : Doc → Nat
  | .obj fs => fs.length
  | .arr xs => xs.length
  | .str s => s.length
  | _ => 0

/-- The two auto-injected annotations deleted by the diff cleaning
(`delete annotations['kubectl.kubernetes.io/last-applied-configuration']`
and `delete annotations['deployment.kubernetes.io/revision']`). -/
def annotStrip (afs : List (String × Doc)) : List (String × Doc) :=
  afs.filter (fun p =>
    p.1 ≠ "kubectl.kubernetes.io/last-applied-configuration" ∧
    p.1 ≠ "deployment.kubernetes.io/revision")

/-- The server-managed keys skipped by `cleanForDiff` at every level. -/
def diffBanned : List String :=
  ["managedFields", "resourceVersion", "uid", "creationTimestamp",
   "generation", "selfLink", "status"]

mutual

/-- `cleanForDiff` from the source: strips server-managed fields for clean
diffing — recursing through arrays and objects, skipping the
`diffBanned` keys, handling an object/array-valued `annotations` entry
by deleting the two auto-injected annotation keys (keeping the entry
only if something remains), and dropping null-valued entries. -/
def cleanForDiff : Doc → Doc
  | .nul => .nul
  | .bool b => .bool b
  | .num n => .num n
  | .str s => .str s
  | .arr xs => .arr (cleanList xs)
  | .obj fs => .obj (cleanFields fs)
termination_by d => sizeOf d

/-- `obj.map(cleanForDiff)` on an array's elements. -/
def cleanList : List Doc → List Doc
  | [] => []
  | x :: xs => cleanForDiff x :: cleanList xs
termination_by xs => sizeOf xs

/-- The `Object.entries` loop of `cleanForDiff`. -/
def cleanFields : List (String × Doc) → List (String × Doc)
  | [] => []
  | (k, v) :: rest =>
    if k ∈ diffBanned then cleanFields rest
    else if k = "annotations" ∧ v.objLike then
      let annot := annotStrip (spreadFields v)
      if annot.isEmpty then cleanFields rest
      else (k, .obj annot) :: cleanFields rest
    else if v = .nul then cleanFields rest
    else (k, cleanForDiff v) :: cleanFields rest
termination_by fs => sizeOf fs

end

mutual

/-- `formatValue` from the source: compact display of a value — quoted
strings truncated past 80 characters, arrays and small objects rendered
inline unless the rendering exceeds 80 characters, in which case they
collapse to an item/field count. -/
def formatValue : Doc → String
  | .nul => "null"
  | .bool b => if b then "true" else "false"
  | .num n => toString n
  | .str s =>
    if s.length > 80 then "\"" ++ s.take 77 ++ "...\"" else "\"" ++ s ++ "\""
  | .arr xs =>
    if xs.isEmpty then "[]"
    else
      let joined := "[" ++ String.intercalate ", " (fmtList xs) ++ "]"
      if joined.length > 80 then "[" ++ toString xs.length ++ " items]" else joined
  | .obj fs =>
    if fs.isEmpty then "\x7b\x7d"
    else
      if fs.length ≤ 3 then
        let joined := "\x7b" ++ String.intercalate ", " (fmtFields fs) ++ "\x7d"
        if joined.length ≤ 80 then joined
        else "\x7b" ++ toString fs.length ++ " fields\x7d"
      else "\x7b" ++ toString fs.length ++ " fields\x7d"
termination_by d => sizeOf d

/-- `v.map(formatValue)` on an array's elements. -/
def fmtList : List Doc → List String
  | [] => []
  | x :: xs => formatValue x :: fmtList xs
termination_by xs => sizeOf xs

/-- `keys.map(k => k + ": " + formatValue(v[k]))` on an object's fields. -/
def fmtFields : List (String × Doc) → List String
  | [] => []
  | (k, v) :: fs => (k ++ ": " ++ formatValue v) :: fmtFields fs
termination_by fs => sizeOf fs

end

/-- Path extension for a map key: dotted from the parent unless at the
root (`path ? path + "." + key : key`). -/
def pathExt (p k : String) : String := if p = "" then k else p ++ "." ++ k

mutual

/-- `deepDiff` from the source: recursive structural comparison producing
human-readable change lines (`~` modify for differing scalars or
array/object type mismatches, positional comparison of arrays,
key-union comparison of objects). -/
def deepDiff (live desired : Doc) (path : String) : List String :=
  match live, desired with
  | .arr xs, .arr ys => diffArr xs ys path 0
  | .obj fs, .obj gs => diffKeys fs gs path (keyUnion (keysOf fs ++ keysOf gs))
  | a, b =>
    if a = b then []
    else ["~ " ++ path ++ ": " ++ formatValue a ++ " → " ++ formatValue b]
termination_by (sizeOf live + sizeOf desired, 0)

/-- The positional array loop of `deepDiff`: indices present on one side
only become `+`/`-` lines, shared indices recurse; `i` is the current
index. -/
def diffArr (xs ys : List Doc) (path : String) (i : Nat) : List String :=
  match xs, ys with
  | [], [] => []
  | [], y :: ys' =>
    ("+ " ++ path ++ "[" ++ toString i ++ "]: " ++ formatValue y)
      :: diffArr [] ys' path (i + 1)
  | x :: xs', [] =>
    ("- " ++ path ++ "[" ++ toString i ++ "]: " ++ formatValue x)
      :: diffArr xs' [] path (i + 1)
  | x :: xs', y :: ys' =>
    deepDiff x y (path ++ "[" ++ toString i ++ "]") ++ diffArr xs' ys' path (i + 1)
termination_by (sizeOf xs + sizeOf ys, 0)

/-- The key-union object loop of `deepDiff`: keys on one side only become
`+`/`-` lines, shared keys recurse. -/
def diffKeys (fs gs : List (String × Doc)) (path : String) :
    List String → List String
  | [] => []
  | k :: ks =>
    (match h1 : findVal k fs, h2 : findVal k gs with
     | none, none => ["+ " ++ pathExt path k ++ ": " ++ formatValue .nul]
     | none, some b => ["+ " ++ pathExt path k ++ ": " ++ formatValue b]
     | some a, none => ["- " ++ pathExt path k ++ ": " ++ formatValue a]
     | some a, some b => deepDiff a b (pathExt path k))
      ++ diffKeys fs gs path ks
termination_by ks => (sizeOf fs + sizeOf gs, sizeOf ks)
decreasing_by
  · apply Prod.Lex.left
    have ha := sizeOf_findVal h1
    have hb := sizeOf_findVal h2
    omega
  · apply Prod.Lex.right
    simp

end

mutual

/-- `summarizeObject` from the source: flattened `+` lines for every leaf
field of a new resource, recursing into nested objects up to the
depth cap, expanding only the first element of arrays (longer arrays
additionally get an item-count line). -/
def summarizeObject : Doc → String → List String
  | .nul, _ => []
  | .bool b, p => ["+ " ++ p ++ ": " ++ formatValue (.bool b)]
  | .num n, p => ["+ " ++ p ++ ": " ++ formatValue (.num n)]
  | .str s, p => ["+ " ++ p ++ ": " ++ formatValue (.str s)]
  | .arr xs, p =>
    match xs with
    | [] => []
    | x :: rest =>
      (if xs.length > 1 then
        ["+ " ++ p ++ ": [" ++ toString xs.length ++ " items]"]
       else []) ++
      (if x.objLike then summarizeObject x (p ++ "[0]")
       else ["+ " ++ p ++ "[0]: " ++ formatValue x])
  | .obj fs, p => sumFields fs p
termination_by d => sizeOf d

/-- The `Object.entries` loop of `summarizeObject`: null entries are
skipped, nonempty object values recurse while the dotted path is under
5 segments, everything else becomes a single `+` line. -/
def sumFields : List (String × Doc) → String → List String
  | [], _ => []
  | (k, v) :: rest, p =>
    (match v with
     | .nul => []
     | .obj [] => ["+ " ++ pathExt p k ++ ": " ++ formatValue (.obj [])]
     | .obj vs =>
       if ((pathExt p k).splitOn ".").length < 5 then
         summarizeObject (.obj vs) (pathExt p k)
       else ["+ " ++ pathExt p k ++ ": " ++ formatValue (.obj vs)]
     | other => ["+ " ++ pathExt p k ++ ": " ++ formatValue other])
      ++ sumFields rest p
termination_by fs => sizeOf fs

end

/-- The metadata keys deleted by `cleanManifest`. -/
def metaBanned : List String :=
  ["managedFields", "resourceVersion", "uid", "creationTimestamp",
   "generation", "selfLink"]

/-- `if (meta[k] && Object.keys(meta[k]).length === 0) delete meta[k]`:
drop the entry when its value is truthy yet has no own keys. -/
def dropIfEmptyMap (k : String) (ms : List (String × Doc)) :
    List (String × Doc) :=
  match findVal k ms with
  | some v => if v.truthy ∧ jsKeysLen v = 0 then delKey k ms else ms
  | none => ms

/-- The metadata processing of `cleanManifest`: spread a copy, delete the
six server-managed keys, then drop `annotations`/`labels` when truthy
but empty. -/
def metaStrip (m : Doc) : Doc :=
  .obj (dropIfEmptyMap "labels" (dropIfEmptyMap "annotations"
    ((spreadFields m).filter (fun p => p.1 ∉ metaBanned))))

/-- `cleanManifest` from the source: shallow-copy the resource, delete the
top-level `status`, and when `metadata` is a truthy object rebuild it
via `metaStrip`. -/
def cleanManifest (d : Doc) : Doc :=
  let fs := delKey "status" (spreadFields d)
  match findVal "metadata" fs with
  | some m => if m.truthy ∧ m.objLike then .obj (setVal "metadata" (metaStrip m) fs) else .obj fs
  | none => .obj fs

mutual

/-- Deep value equality of documents (the spec's comparison notion):
scalars by value, arrays pointwise, objects by key set with equal
values at shared keys, insensitive to field order. -/
def jsonEq : Doc → Doc → Bool
  | .arr xs, .arr ys => jsonEqList xs ys
  | .obj fs, .obj gs => jsonEqKeys fs gs (keyUnion (keysOf fs ++ keysOf gs))
  | a, b => decide (a = b)
termination_by a => (sizeOf a, 0)

/-- Pointwise deep equality of array elements. -/
def jsonEqList : List Doc → List Doc → Bool
  | [], [] => true
  | x :: xs, y :: ys => jsonEq x y && jsonEqList xs ys
  | _, _ => false
termination_by xs => (sizeOf xs, 0)

/-- Deep equality over a list of keys: each key must be present on both
sides with deeply equal values. -/
def jsonEqKeys (fs gs : List (String × Doc)) : List String → Bool
  | [] => true
  | k :: ks =>
    (match h1 : findVal k fs, h2 : findVal k gs with
     | some a, some b => jsonEq a b
     | _, _ => false) && jsonEqKeys fs gs ks
termination_by ks => (sizeOf fs, sizeOf ks)
decreasing_by
  · apply Prod.Lex.left
    exact sizeOf_findVal h1
  · apply Prod.Lex.right
    simp

end

mutual

/-- JS template-string coercion of a value embedded in a string
(backtick interpolation): strings verbatim, `[object Object]` for
objects, comma-joined elements for arrays. -/
def templStr : Doc → String
  | .nul => "null"
  | .bool b => if b then "true" else "false"
  | .num n => toString n
  | .str s => s
  | .arr xs => String.intercalate "," (templList xs)
  | .obj _ => "[object Object]"
termination_by d => sizeOf d

/-- `Array.prototype.join(',')` element coercion: null elements render
empty. -/
def templList : List Doc → List String
  | [] => []
  | x :: xs => (if x = .nul then "" else templStr x) :: templList xs
termination_by xs => sizeOf xs

end

/-- Template coercion of a possibly-absent property
(`undefined` renders as "undefined"). -/
def templOpt : Option Doc → String
  | none => "undefined"
  | some d => templStr d

/-- Command-result status: the only two values ever submitted. -/
inductive Status where
  | completed : Status
  | failed : Status
deriving DecidableEq

/-- One per-resource outcome record pushed into `results` by the apply
loop. -/
structure Outcome where
  resource : String
  success : Bool
  error : Option String
  log : Option String
  diff : Option (List String)
deriving DecidableEq

/-- The aggregated apply-batch result `{ results, log, dryRun }`. -/
structure BatchResult where
  results : List Outcome
  log : String
  dryRun : Bool
deriving DecidableEq

/-- A command's `result` payload (operation-specific). -/
inductive ResultVal where
  | applyResult (r : BatchResult) : ResultVal
  | manifestsBlob (s : String) : ResultVal
  | plain (s : String) : ResultVal
deriving DecidableEq

/-- What `executeCommand` resolves with: `{ result?, error? }`. -/
structure CmdOutcome where
  result : Option ResultVal
  error : Option String
deriving DecidableEq

/-- One `submitResult` call: `{ commandId, status, result?, error? }`. -/
structure Submission where
  commandId : String
  status : Status
  result : Option ResultVal
  error : Option String
deriving DecidableEq

/-- JS truthiness of the destructured `error` field. -/
def truthyErr : Option String → Bool
  | none => false
  | some s => s ≠ ""

/-- The command-handling block of the main loop as observed when the
submission transport accepts the submission: run `executeCommand` (whose
resolution or rejection is the argument) and submit the resulting
`submitResult` call — failed for a truthy `error` field or a thrown
exception, completed otherwise. This is the accepted-submission slice of
`handleCommand`, which also models a rejected `submitResult` fetch. -/
def runReport (cmdId : String) (exec : Except String CmdOutcome) :
    List Submission :=
  match exec with
  | .error msg => [⟨cmdId, .failed, none, some msg⟩]
  | .ok o =>
    if truthyErr o.error then [⟨cmdId, .failed, none, o.error⟩]
    else [⟨cmdId, .completed, o.result, none⟩]

/-- The submission transport: `submitResult` is `await fetch(...)`, which
either resolves (`none`) or rejects with a transport error message
(`some msg`). -/
structure SubmitEnv where
  submitFn : Submission → Option String

/-- The full command-handling try/catch of the main loop with a fallible
submission transport, returning the sequence of `submitResult` attempts
made for one command. A resolved `executeCommand` picks the first
submission (failed for a truthy `error` field, completed otherwise); that
awaited call sits inside the `try`, so its rejection is caught and
answered with a second, failed submission carrying the transport error
message (whose own rejection escapes to the outer poll loop). A thrown
execution lands in the catch directly: a single failed submission
attempt. -/
def handleCommand (tr : SubmitEnv) (cmdId : String)
    (exec : Except String CmdOutcome) : List Submission :=
  match exec with
  | .error msg => [⟨cmdId, .failed, none, some msg⟩]
  | .ok o =>
    let first : Submission :=
      if truthyErr o.error then ⟨cmdId, .failed, none, o.error⟩
      else ⟨cmdId, .completed, o.result, none⟩
    match tr.submitFn first with
    | none => [first]
    | some emsg => [first, ⟨cmdId, .failed, none, some emsg⟩]

/-- The observable ways one `poll()` call can go: a command, a clean
"no command" body, a non-ok HTTP status, or a thrown transport error
(network failure / unparsable body). -/
inductive PollOutcome where
  | gotCommand (id ctype : String) : PollOutcome
  | noCommand : PollOutcome
  | httpError (status : Nat) : PollOutcome
  | transportError (msg : String) : PollOutcome

/-- `poll()` from the source: a non-ok HTTP status is logged and returns
`null` exactly like a clean "no command"; only a thrown transport error
escapes as an exception. -/
def pollResult : PollOutcome → Except String (Option (String × String))
  | .gotCommand id ctype => .ok (some (id, ctype))
  | .noCommand => .ok none
  | .httpError _ => .ok none
  | .transportError msg => .error msg

/-- The delay (ms) the main loop inserts after one iteration whose poll
behaved as given: only the catch branch of the loop sleeps (3000 ms);
every non-throwing poll result loops back immediately. -/
def loopIterDelay (p : PollOutcome) : Nat :=
  match pollResult p with
  | .error _ => 3000
  | .ok _ => 0

/-- The cluster behavior one apply attempt can observe, as capability
functions of the (defaulted) resource document: `read` resolving with a
live object or rejecting (treated as "does not exist"), and
`patch`/`create` either succeeding or rejecting with a message. -/
structure ApplyEnv where
  readFn : Doc → Option Doc
  patchFn : Doc → Option String
  createFn : Doc → Option String

/-- One manifest text of an apply batch, abstracted by its parse outcome:
`bad` when `yaml.load` throws, `good` with the parsed document. -/
inductive ManifestInput where
  | bad (msg : String) : ManifestInput
  | good (d : Doc) : ManifestInput

/-- The namespace/name defaulting block run per manifest before the read:
when `metadata` is missing, falsy or a primitive it is replaced by
`{ name: name || 'unnamed' }`; then a missing/falsy `metadata.namespace`
is set from the command payload. (An array-valued `metadata` is kept
as-is: the JS property writes on it are not observable through the
document structure.) -/
def defaultMetadata (d : Doc) (ns : String) : Doc :=
  match d with
  | .obj fs =>
    let metaV := findVal "metadata" fs
    let nameV := optProp metaV "name"
    let m1 : Doc :=
      match metaV with
      | some (.obj ms) => .obj ms
      | some (.arr xs) => .arr xs
      | _ => .obj [("name", match nameV with
                    | some v => if v.truthy then v else .str "unnamed"
                    | none => .str "unnamed")]
    let m2 : Doc :=
      match m1 with
      | .obj ms =>
        if (match findVal "namespace" ms with
            | some v => v.truthy
            | none => false) then .obj ms
        else .obj (setProp "namespace" (.str ns) ms)
      | other => other
    .obj (setProp "metadata" m2 fs)
  | other => other

/-- One manifest's reconciliation attempt (the body of the apply loop for
a parsed document): label the resource, default its metadata, read the
live state, then patch or create — in dry-run mode additionally
computing the change plan (`deepDiff` of the cleaned live and desired
documents) or the creation summary (`summarizeObject` of the cleaned
desired document). Returns the pushed outcome record and log lines.
A primitive document makes the strict-mode metadata assignment throw,
which the catch turns into a per-resource failure. -/
def applyOne (env : ApplyEnv) (ns : String) (dry : Bool) (d : Doc) :
    Outcome × List String :=
  let label := templOpt (jsProp d "kind") ++ "/" ++
    templOpt (optProp (jsProp d "metadata") "name")
  let fail := fun (msg : String) =>
    ((⟨label, false, some msg, some (label ++ " failed: " ++ msg), none⟩ : Outcome),
     ["  ✗ " ++ label ++ " failed: " ++ msg, ""])
  if d.isScalar then
    fail ("Cannot create property metadata on " ++ templStr d)
  else
    let d1 := defaultMetadata d ns
    match env.readFn d1 with
    | some live =>
      match env.patchFn d1 with
      | some msg => fail msg
      | none =>
        let action := if dry then label ++ " validated (would update)"
          else label ++ " configured"
        let diffLines := if dry then deepDiff (cleanForDiff live) (cleanForDiff d1) "" else []
        let detail := if dry then
            (if diffLines.isEmpty then ["      (no changes)"]
             else diffLines.map (fun l => "      " ++ l))
          else []
        (⟨label, true, none, some action, some diffLines⟩,
         ["  ✓ " ++ action] ++ detail ++ [""])
    | none =>
      match env.createFn d1 with
      | some msg => fail msg
      | none =>
        let action := if dry then label ++ " validated (would create)"
          else label ++ " created"
        let diffLines := if dry then summarizeObject (cleanForDiff d1) "" else []
        (⟨label, true, none, some action, some diffLines⟩,
         ["  ✓ " ++ action] ++ diffLines.map (fun l => "      " ++ l) ++ [""])

/-- The apply loop over the batch: `yaml.load` sits outside the
per-manifest `try`, so a text whose parse throws — or whose parse
yields null/undefined, making the `obj.kind` read throw — rejects the
whole `executeCommand` call. Parsed documents are processed by
`applyOne` and their outcomes and log lines collected in order. -/
def applyBatchGo (env : ApplyEnv) (ns : String) (dry : Bool) :
    List ManifestInput → Except String (List Outcome × List String)
  | [] => .ok ([], [])
  | .bad msg :: _ => .error msg
  | .good d :: rest =>
    if d = .nul then .error "Cannot read properties of null reading kind"
    else
      let (o, ls) := applyOne env ns dry d
      match applyBatchGo env ns dry rest with
      | .error msg => .error msg
      | .ok (os, ls2) => .ok (o :: os, ls ++ ls2)

/-- The `apply_manifest` branch of `executeCommand`: header log line,
the batch loop, and the `Done: P passed, F failed` summary, aggregated
into `{ results, log, dryRun }`; a parse-time throw escapes as a
rejection. -/
def execApplyManifest (env : ApplyEnv) (ns : String) (dry : Bool)
    (inputs : List ManifestInput) : Except String CmdOutcome :=
  let mode := if dry then "Dry run" else "Deploying"
  let header := [mode ++ ": " ++ toString inputs.length ++
    " resource(s) to namespace \"" ++ ns ++ "\"", ""]
  match applyBatchGo env ns dry inputs with
  | .error msg => .error msg
  | .ok (os, ls) =>
    let passed := (os.filter (fun o => o.success)).length
    let failed := (os.filter (fun o => !o.success)).length
    .ok ⟨some (.applyResult ⟨os,
      String.intercalate "\n" (header ++ ls ++
        ["Done: " ++ toString passed ++ " passed, " ++ toString failed ++ " failed"]),
      dry⟩), none⟩

/-- The assembled multi-line log of an all-parsed apply batch: the header,
each manifest's log block in order, and the final pass/fail summary. -/
def applyLog (env : ApplyEnv) (ns : String) (dry : Bool) (ds : List Doc) : String :=
  let os := ds.map (fun d => (applyOne env ns dry d).1)
  let ls := ds.flatMap (fun d => (applyOne env ns dry d).2)
  let mode := if dry then "Dry run" else "Deploying"
  String.intercalate "\n"
    ([mode ++ ": " ++ toString ds.length ++ " resource(s) to namespace \"" ++
      ns ++ "\"", ""] ++ ls ++
     ["Done: " ++ toString (os.filter (fun o => o.success)).length ++
      " passed, " ++ toString (os.filter (fun o => !o.success)).length ++ " failed"])

/-- The resource-kind catalog handled by `get_manifests`. -/
def catalogKinds : List String :=
  ["Deployment", "Service", "ConfigMap", "Secret", "Ingress", "StatefulSet",
   "DaemonSet", "CronJob", "Job", "HorizontalPodAutoscaler",
   "PersistentVolumeClaim"]

/-- The cluster behavior `get_manifests` can observe: per (kind, name),
the typed read either resolves with the resource or rejects. -/
structure GetEnv where
  fetchFn : String → String → Except String Doc

/-- The per-request loop of `get_manifests`, parameterized by the opaque
YAML serializer: a kind outside the catalog leaves `raw` null, a
rejected fetch is caught and logged, and only truthy fetched resources
are cleaned and dumped. -/
def getManifestsDocs (env : GetEnv) (dump : Doc → String) :
    List (String × String) → List String
  | [] => []
  | (kind, name) :: rest =>
    (if kind ∈ catalogKinds then
      match env.fetchFn kind name with
      | .ok raw => if raw.truthy then [dump (cleanManifest raw)] else []
      | .error _ => []
     else []) ++ getManifestsDocs env dump rest

/-- The `get_manifests` branch of `executeCommand`: the fetched documents
joined with the document separator, always a successful outcome. -/
def execGetManifests (env : GetEnv) (dump : Doc → String)
    (reqs : List (String × String)) : CmdOutcome :=
  ⟨some (.manifestsBlob (String.intercalate "---\n" (getManifestsDocs env dump reqs))),
   none⟩

/-- Two documents that differ exactly in the value of one scalar field.
`OneScalarChange p X Y q a b`: diffing from base path `p`, the documents
`X` and `Y` coincide everywhere except at the single field whose rendered
path is `q`, where `X` holds the primitive `a` and `Y` the primitive `b`,
with `a ≠ b`. -/
inductive OneScalarChange : String → Doc → Doc → String → Doc → Doc → Prop where
  | here (p : String) (a b : Doc) (ha : a.isScalar = true) (hb : b.isScalar = true)
      (hne : a ≠ b) : OneScalarChange p a b p a b
  | inArr (p : String) (pre : List Doc) (x y : Doc) (post : List Doc)
      (q : String) (a b : Doc)
      (h : OneScalarChange (p ++ "[" ++ toString pre.length ++ "]") x y q a b) :
      OneScalarChange p (.arr (pre ++ x :: post)) (.arr (pre ++ y :: post)) q a b
  | inObj (p : String) (pre : List (String × Doc)) (k : String) (x y : Doc)
      (post : List (String × Doc)) (q : String) (a b : Doc)
      (hk : k ∉ keysOf pre)
      (h : OneScalarChange (pathExt p k) x y q a b) :
      OneScalarChange p (.obj (pre ++ (k, x) :: post))
        (.obj (pre ++ (k, y) :: post)) q a b

/-- Check on a cleaned `annotations` value: a nonempty object holding
neither of the two auto-injected annotation keys. -/
def annotOK : Doc → Bool
  | .obj afs => !afs.isEmpty &&
      decide (findVal "kubectl.kubernetes.io/last-applied-configuration" afs = none) &&
      decide (findVal "deployment.kubernetes.io/revision" afs = none)
  | _ => true

mutual

/-- Checker for the diff-cleaning invariant: inside every object — except
within the verbatim-preserved value of an `annotations` entry — no
server-managed key and no null value occurs, and an object-valued
`annotations` entry is nonempty and free of the two auto-injected
annotation keys. -/
def stripOK : Doc → Bool
  | .arr xs => stripOKList xs
  | .obj fs => stripOKFields fs
  | _ => true
termination_by d => sizeOf d

/-- `stripOK` over an array's elements. -/
def stripOKList : List Doc → Bool
  | [] => true
  | x :: xs => stripOK x && stripOKList xs
termination_by xs => sizeOf xs

/-- `stripOK` over an object's fields. -/
def stripOKFields : List (String × Doc) → Bool
  | [] => true
  | (k, v) :: rest =>
    decide (k ∉ diffBanned) && decide (v ≠ .nul) &&
    (if k = "annotations" ∧ v.objLike then annotOK v else stripOK v) &&
    stripOKFields rest
termination_by fs => sizeOf fs

end

/-! ### Library lemmas about the key machinery -/

theorem mem_addKey {seen : List String} {k a : String} :
    a ∈ addKey seen k ↔ a ∈ seen ∨ a = k := by
  simp only [addKey]
  split
  · constructor
    · exact fun h => Or.inl h
    · rintro (h | rfl) <;> assumption
  · simp

theorem addKey_nodup {seen : List String} {k : String} (h : seen.Nodup) :
    (addKey seen k).Nodup := by
  simp only [addKey]
  split
  · exact h
  · rename_i hk
    simp [List.nodup_append, h, hk]

theorem foldl_addKey_mem :
    ∀ (l acc : List String) (a : String),
      a ∈ l.foldl addKey acc ↔ a ∈ acc ∨ a ∈ l := by
  intro l
  induction l with
  | nil => simp
  | cons k l ih =>
    intro acc a
    simp only [List.foldl_cons, ih, mem_addKey, List.mem_cons]
    tauto

theorem foldl_addKey_nodup :
    ∀ (l acc : List String), acc.Nodup → (l.foldl addKey acc).Nodup := by
  intro l
  induction l with
  | nil => simpa
  | cons k l ih => intro acc h; exact ih _ (addKey_nodup h)

theorem mem_keyUnion {l : List String} {a : String} :
    a ∈ keyUnion l ↔ a ∈ l := by
  simp [keyUnion, foldl_addKey_mem]

theorem keyUnion_nodup (l : List String) : (keyUnion l).Nodup :=
  foldl_addKey_nodup l [] List.nodup_nil

theorem findVal_isSome_of_mem_keys :
    ∀ {fs : List (String × Doc)} {k : String},
      k ∈ keysOf fs → (findVal k fs).isSome := by
  intro fs
  induction fs with
  | nil => simp [keysOf]
  | cons p rest ih =>
    intro k h
    obtain ⟨k', v⟩ := p
    simp only [keysOf, List.map_cons, List.mem_cons] at h
    simp only [findVal]
    split
    · simp
    · rcases h with h | h
      · simp_all
      · exact ih h

theorem mem_of_findVal :
    ∀ {fs : List (String × Doc)} {k : String} {v : Doc},
      findVal k fs = some v → (k, v) ∈ fs := by
  intro fs
  induction fs with
  | nil => intro k v h; simp [findVal] at h
  | cons p rest ih =>
    intro k v h
    obtain ⟨k', v'⟩ := p
    simp only [findVal] at h
    split at h
    · cases h; simp_all
    · simp [ih h]

/-! ### The no-op diff: `deepDiff X X` is empty -/

theorem diffArr_of_all :
    ∀ (xs : List Doc) (p : String) (i : Nat),
      (∀ x ∈ xs, ∀ p', deepDiff x x p' = []) → diffArr xs xs p i = [] := by
  intro xs
  induction xs with
  | nil => intro p i _; simp [diffArr]
  | cons x rest ih =>
    intro p i h
    simp only [diffArr]
    rw [h x (by simp), ih p (i + 1) (fun z hz p' => h z (by simp [hz]) p')]
    simp

theorem diffKeys_of_all :
    ∀ (ks : List String) (fs : List (String × Doc)) (p : String),
      (∀ k v, findVal k fs = some v → ∀ p', deepDiff v v p' = []) →
      (∀ k ∈ ks, (findVal k fs).isSome) →
      diffKeys fs fs p ks = [] := by
  intro ks
  induction ks with
  | nil => intro fs p _ _; simp [diffKeys]
  | cons k ks ih =>
    intro fs p h hmem
    simp only [diffKeys]
    have hsome := hmem k (by simp)
    obtain ⟨v, hv⟩ := Option.isSome_iff_exists.mp hsome
    rw [ih fs p h (fun a ha => hmem a (by simp [ha]))]
    simp only [List.append_nil]
    split <;> rename_i h1 h2
    · simp [hv] at h1
    · simp [hv] at h1
    · simp [hv] at h2
    · rw [hv] at h1 h2
      injection h1 with e1
      injection h2 with e2
      subst e1; subst e2
      simp [h k v hv]

theorem deepDiff_self : ∀ (d : Doc) (p : String), deepDiff d d p = [] := by
  intro d
  induction d using Doc.strongOn with
  | h d ih =>
    intro p
    cases d with
    | arr xs =>
      simp only [deepDiff]
      exact diffArr_of_all xs p 0 (fun x hx p' =>
        ih x (by have := List.sizeOf_lt_of_mem hx; simp; omega) p')
    | obj fs =>
      simp only [deepDiff]
      refine diffKeys_of_all _ fs p (fun k v hv p' => ?_) (fun k hk => ?_)
      · refine ih v ?_ p'
        have h1 := sizeOf_findVal hv
        simp; omega
      · refine findVal_isSome_of_mem_keys ?_
        rw [mem_keyUnion, List.mem_append] at hk
        exact hk.elim id id
    | nul => simp [deepDiff]
    | bool b => simp [deepDiff]
    | num n => simp [deepDiff]
    | str s => simp [deepDiff]

theorem diffArr_self (xs : List Doc) (p : String) (i : Nat) :
    diffArr xs xs p i = [] :=
  diffArr_of_all xs p i (fun x _ p' => deepDiff_self x p')

/-! ### Deep value equality gives an empty diff -/

theorem jsonEqList_diff :
    ∀ (xs ys : List Doc) (p : String) (i : Nat),
      (∀ x ∈ xs, ∀ y (p' : String), jsonEq x y = true → deepDiff x y p' = []) →
      jsonEqList xs ys = true → diffArr xs ys p i = [] := by
  intro xs
  induction xs with
  | nil =>
    intro ys p i _ hj
    cases ys with
    | nil => simp [diffArr]
    | cons y ys => simp [jsonEqList] at hj
  | cons x xs ih =>
    intro ys p i hall hj
    cases ys with
    | nil => simp [jsonEqList] at hj
    | cons y ys =>
      simp only [jsonEqList, Bool.and_eq_true] at hj
      simp only [diffArr]
      rw [hall x (by simp) y _ hj.1,
        ih ys p (i + 1) (fun z hz w p' hzw => hall z (by simp [hz]) w p' hzw) hj.2]
      simp

theorem diffKeys_cons_both {fs gs : List (String × Doc)} {k : String} {a b : Doc}
    (hf : findVal k fs = some a) (hg : findVal k gs = some b)
    (p : String) (ks : List String) :
    diffKeys fs gs p (k :: ks) =
      deepDiff a b (pathExt p k) ++ diffKeys fs gs p ks := by
  simp only [diffKeys]
  congr 1
  split <;> rename_i h1 h2
  · simp [hf] at h1
  · simp [hf] at h1
  · simp [hg] at h2
  · rw [hf] at h1
    rw [hg] at h2
    injection h1 with e1
    injection h2 with e2
    rw [e1, e2]

theorem jsonEqKeys_cons_both {fs gs : List (String × Doc)} {k : String} {a b : Doc}
    (hf : findVal k fs = some a) (hg : findVal k gs = some b) (ks : List String) :
    jsonEqKeys fs gs (k :: ks) = (jsonEq a b && jsonEqKeys fs gs ks) := by
  simp only [jsonEqKeys]
  congr 1
  split
  · rename_i h1 h2
    rw [hf] at h1
    rw [hg] at h2
    injection h1 with e1
    injection h2 with e2
    rw [e1, e2]
  · rename_i hno
    exact (hno a b hf hg).elim

theorem jsonEqKeys_cons_fst_none {fs gs : List (String × Doc)} {k : String}
    (hf : findVal k fs = none) (ks : List String) :
    jsonEqKeys fs gs (k :: ks) = false := by
  simp only [jsonEqKeys]
  split <;> simp_all

theorem jsonEqKeys_cons_snd_none {fs gs : List (String × Doc)} {k : String}
    (hg : findVal k gs = none) (ks : List String) :
    jsonEqKeys fs gs (k :: ks) = false := by
  simp only [jsonEqKeys]
  split <;> simp_all

theorem jsonEqKeys_diff :
    ∀ (ks : List String) (fs gs : List (String × Doc)) (p : String),
      (∀ k v, findVal k fs = some v →
        ∀ w (p' : String), jsonEq v w = true → deepDiff v w p' = []) →
      jsonEqKeys fs gs ks = true → diffKeys fs gs p ks = [] := by
  intro ks
  induction ks with
  | nil => intro fs gs p _ _; simp [diffKeys]
  | cons k ks ih =>
    intro fs gs p hall hj
    cases hf : findVal k fs with
    | none => rw [jsonEqKeys_cons_fst_none hf] at hj; cases hj
    | some a =>
      cases hg : findVal k gs with
      | none => rw [jsonEqKeys_cons_snd_none hg] at hj; cases hj
      | some b =>
        rw [jsonEqKeys_cons_both hf hg, Bool.and_eq_true] at hj
        rw [diffKeys_cons_both hf hg, hall k a hf b _ hj.1,
          ih fs gs p hall hj.2]
        simp

theorem jsonEq_deepDiff :
    ∀ (a b : Doc) (p : String), jsonEq a b = true → deepDiff a b p = [] := by
  intro a
  induction a using Doc.strongOn with
  | h a ih =>
    intro b p h
    cases a <;> cases b <;> simp only [jsonEq, decide_eq_true_eq] at h
    all_goals try (exact h.elim)
    all_goals try (exact Doc.noConfusion h)
    all_goals try (exact deepDiff_self _ p)
    all_goals try (rw [← h]; exact deepDiff_self _ p)
    case arr.arr xs ys =>
      simp only [deepDiff]
      exact jsonEqList_diff xs ys p 0
        (fun x hx y p' hxy =>
          ih x (by have := List.sizeOf_lt_of_mem hx; simp; omega) y p' hxy) h
    case obj.obj fs gs =>
      simp only [deepDiff]
      exact jsonEqKeys_diff _ fs gs p
        (fun k v hv w p' hvw =>
          ih v (by have := sizeOf_findVal hv; simp; omega) w p' hvw) h

/-! ### One changed scalar field gives exactly one modify line -/

theorem diffArr_frame :
    ∀ (pre : List Doc) (x y : Doc) (post : List Doc) (p : String) (i : Nat),
      diffArr (pre ++ x :: post) (pre ++ y :: post) p i =
        deepDiff x y (p ++ "[" ++ toString (i + pre.length) ++ "]") := by
  intro pre
  induction pre with
  | nil =>
    intro x y post p i
    simp only [List.nil_append, diffArr, diffArr_self, List.append_nil,
      List.length_nil, Nat.add_zero]
  | cons z pre ih =>
    intro x y post p i
    simp only [List.cons_append, diffArr, deepDiff_self, List.nil_append]
    rw [ih x y post p (i + 1),
      show (i + 1) + pre.length = i + (pre.length + 1) from by omega]
    simp

theorem findVal_frame_ne {pre post : List (String × Doc)} {k k' : String}
    {x y : Doc} (hne : k' ≠ k) :
    findVal k' (pre ++ (k, x) :: post) = findVal k' (pre ++ (k, y) :: post) := by
  induction pre with
  | nil =>
    simp only [List.nil_append, findVal]
    rw [if_neg (fun h => hne h.symm), if_neg (fun h => hne h.symm)]
  | cons q pre ih =>
    obtain ⟨kq, vq⟩ := q
    simp only [List.cons_append, findVal]
    split
    · rfl
    · exact ih

theorem findVal_frame_self {pre post : List (String × Doc)} {k : String}
    {x : Doc} (hk : k ∉ keysOf pre) :
    findVal k (pre ++ (k, x) :: post) = some x := by
  induction pre with
  | nil => simp [findVal]
  | cons q pre ih =>
    obtain ⟨kq, vq⟩ := q
    simp only [keysOf, List.map_cons, List.mem_cons] at hk
    push_neg at hk
    simp only [List.cons_append, findVal]
    rw [if_neg (fun h => hk.1 h.symm)]
    exact ih (by simpa [keysOf] using hk.2)

theorem keysOf_append (fs gs : List (String × Doc)) :
    keysOf (fs ++ gs) = keysOf fs ++ keysOf gs := by
  simp [keysOf]

theorem diffKeys_eq_on :
    ∀ (ks : List String) (A B : List (String × Doc)) (p : String),
      (∀ k' ∈ ks, findVal k' A = findVal k' B ∧ (findVal k' A).isSome) →
      diffKeys A B p ks = [] := by
  intro ks
  induction ks with
  | nil => intro A B p _; simp [diffKeys]
  | cons k ks ih =>
    intro A B p h
    obtain ⟨heq, hsome⟩ := h k (by simp)
    obtain ⟨v, hv⟩ := Option.isSome_iff_exists.mp hsome
    rw [diffKeys_cons_both hv (heq ▸ hv), deepDiff_self,
      ih A B p (fun k' hk' => h k' (by simp [hk']))]
    simp

theorem diffKeys_single :
    ∀ (ks : List String) (A B : List (String × Doc)) (p k : String) (x y : Doc),
      ks.Nodup →
      findVal k A = some x → findVal k B = some y →
      (∀ k', k' ≠ k → findVal k' A = findVal k' B) →
      (∀ k' ∈ ks, (findVal k' A).isSome) →
      k ∈ ks →
      diffKeys A B p ks = deepDiff x y (pathExt p k) := by
  intro ks
  induction ks with
  | nil => intro A B p k x y _ _ _ _ _ hmem; cases hmem
  | cons k0 ks ih =>
    intro A B p k x y hnodup hx hy hother hsome hmem
    by_cases hk0 : k0 = k
    · subst hk0
      rw [diffKeys_cons_both hx hy,
        diffKeys_eq_on ks A B p (fun k' hk' => ?_), List.append_nil]
      have hne : k' ≠ k0 := by
        intro hcontra
        subst hcontra
        exact (List.nodup_cons.mp hnodup).1 hk'
      exact ⟨hother k' hne, hsome k' (by simp [hk'])⟩
    · have hk0ne : k0 ≠ k := hk0
      have hmem' : k ∈ ks := by
        rcases List.mem_cons.mp hmem with h | h
        · exact absurd h.symm hk0
        · exact h
      obtain ⟨v, hv⟩ := Option.isSome_iff_exists.mp (hsome k0 (by simp))
      rw [diffKeys_cons_both hv ((hother k0 hk0ne) ▸ hv), deepDiff_self,
        List.nil_append]
      exact ih A B p k x y (List.nodup_cons.mp hnodup).2 hx hy hother
        (fun k' hk' => hsome k' (by simp [hk'])) hmem'

theorem oneScalarChange_diff {p : String} {X Y : Doc} {q : String} {a b : Doc}
    (h : OneScalarChange p X Y q a b) :
    deepDiff X Y p =
      ["~ " ++ q ++ ": " ++ formatValue a ++ " → " ++ formatValue b] := by
  induction h with
  | here p a b ha hb hne =>
    cases a <;> cases b <;> simp_all [deepDiff, Doc.isScalar]
  | inArr p pre x y post q a b h ih =>
    simp only [deepDiff]
    rw [diffArr_frame, Nat.zero_add, ih]
  | inObj p pre k x y post q a b hk h ih =>
    simp only [deepDiff]
    have hkeys : keysOf (pre ++ (k, x) :: post) = keysOf (pre ++ (k, y) :: post) := by
      simp [keysOf]
    rw [diffKeys_single (keyUnion (keysOf (pre ++ (k, x) :: post) ++
        keysOf (pre ++ (k, y) :: post)))
        _ _ p k x y (keyUnion_nodup _)
        (findVal_frame_self hk) (findVal_frame_self hk)
        (fun k' hne => findVal_frame_ne hne)
        (fun k' hk' => ?_)
        (by
          rw [mem_keyUnion, List.mem_append]
          left
          rw [keysOf_append]
          simp [keysOf]), ih]
    rw [mem_keyUnion, List.mem_append, ← hkeys, or_self] at hk'
    exact findVal_isSome_of_mem_keys hk'

/-! ### Idempotence of the cleaning functions -/

theorem annotStrip_idem (l : List (String × Doc)) :
    annotStrip (annotStrip l) = annotStrip l := by
  simp only [annotStrip, List.filter_filter, Bool.and_self]

theorem cleanForDiff_eq_nul_iff {v : Doc} : cleanForDiff v = .nul ↔ v = .nul := by
  cases v <;> simp [cleanForDiff]

theorem objLike_cleanForDiff (v : Doc) :
    (cleanForDiff v).objLike = v.objLike := by
  cases v <;> simp [cleanForDiff, Doc.objLike]

theorem cleanFields_cons_banned {k : String} {v : Doc}
    {rest : List (String × Doc)} (h : k ∈ diffBanned) :
    cleanFields ((k, v) :: rest) = cleanFields rest := by
  simp [cleanFields, h]

theorem cleanFields_cons_annot_empty {k : String} {v : Doc}
    {rest : List (String × Doc)} (h1 : k ∉ diffBanned)
    (h2 : k = "annotations" ∧ v.objLike) (h3 : (annotStrip (spreadFields v)).isEmpty) :
    cleanFields ((k, v) :: rest) = cleanFields rest := by
  simp [cleanFields, h1, h2, h3]

theorem cleanFields_cons_annot {k : String} {v : Doc}
    {rest : List (String × Doc)} (h1 : k ∉ diffBanned)
    (h2 : k = "annotations" ∧ v.objLike)
    (h3 : ¬(annotStrip (spreadFields v)).isEmpty) :
    cleanFields ((k, v) :: rest) =
      (k, .obj (annotStrip (spreadFields v))) :: cleanFields rest := by
  obtain ⟨hkeq, hobj⟩ := h2
  subst hkeq
  simp [cleanFields, h1, hobj, h3]

theorem cleanFields_cons_nul {k : String} {rest : List (String × Doc)}
    (h1 : k ∉ diffBanned) (h2 : ¬(k = "annotations" ∧ Doc.objLike .nul)) :
    cleanFields ((k, .nul) :: rest) = cleanFields rest := by
  simp [cleanFields, h1, h2]

theorem cleanFields_cons_general {k : String} {v : Doc}
    {rest : List (String × Doc)} (h1 : k ∉ diffBanned)
    (h2 : ¬(k = "annotations" ∧ v.objLike)) (h3 : v ≠ .nul) :
    cleanFields ((k, v) :: rest) = (k, cleanForDiff v) :: cleanFields rest := by
  simp [cleanFields, h1, h2, h3]

theorem cleanList_idem_of :
    ∀ (xs : List Doc),
      (∀ x ∈ xs, cleanForDiff (cleanForDiff x) = cleanForDiff x) →
      cleanList (cleanList xs) = cleanList xs := by
  intro xs
  induction xs with
  | nil => intro _; simp [cleanList]
  | cons x rest ih =>
    intro h
    simp only [cleanList]
    rw [h x (by simp), ih (fun z hz => h z (by simp [hz]))]

theorem cleanFields_idem_of :
    ∀ (fs : List (String × Doc)),
      (∀ q ∈ fs, cleanForDiff (cleanForDiff q.2) = cleanForDiff q.2) →
      cleanFields (cleanFields fs) = cleanFields fs := by
  intro fs
  induction fs with
  | nil => intro _; simp [cleanFields]
  | cons q rest ih =>
    intro h
    obtain ⟨k, v⟩ := q
    have hrest := ih (fun z hz => h z (by simp [hz]))
    by_cases h1 : k ∈ diffBanned
    · rw [cleanFields_cons_banned h1, hrest]
    · by_cases h2 : k = "annotations" ∧ v.objLike
      · obtain ⟨hkeq, hobj⟩ := h2
        subst hkeq
        by_cases h3 : (annotStrip (spreadFields v)).isEmpty
        · rw [cleanFields_cons_annot_empty h1 ⟨rfl, hobj⟩ h3, hrest]
        · have hstrip : annotStrip (spreadFields (Doc.obj (annotStrip (spreadFields v)))) =
              annotStrip (spreadFields v) := by
            simp [spreadFields, annotStrip_idem]
          rw [cleanFields_cons_annot h1 ⟨rfl, hobj⟩ h3,
            cleanFields_cons_annot h1 ⟨rfl, by simp [Doc.objLike]⟩
              (by simpa [hstrip] using h3),
            hrest, hstrip]
      · by_cases h3 : v = .nul
        · subst h3
          rw [cleanFields_cons_nul h1 h2, hrest]
        · rw [cleanFields_cons_general h1 h2 h3,
            cleanFields_cons_general h1
              (by
                rw [objLike_cleanForDiff]
                exact h2)
              (by
                rw [Ne, cleanForDiff_eq_nul_iff]
                exact h3),
            h (k, v) (by simp), hrest]

theorem findVal_delKey_self (k : String) (l : List (String × Doc)) :
    findVal k (delKey k l) = none := by
  induction l with
  | nil => simp [delKey, findVal]
  | cons q rest ih =>
    obtain ⟨kq, vq⟩ := q
    by_cases h : kq = k
    · subst h
      simpa [delKey] using ih
    · simpa [delKey, h, findVal] using ih

theorem findVal_delKey_ne {k k' : String} (h : k' ≠ k) (l : List (String × Doc)) :
    findVal k' (delKey k l) = findVal k' l := by
  induction l with
  | nil => simp [delKey, findVal]
  | cons q rest ih =>
    obtain ⟨kq, vq⟩ := q
    by_cases hq : kq = k
    · have hne : kq ≠ k' := fun hc => h (hc ▸ hq)
      rw [show delKey k ((kq, vq) :: rest) = delKey k rest from by simp [delKey, hq]]
      rw [ih, findVal, if_neg hne]
    · rw [show delKey k ((kq, vq) :: rest) = (kq, vq) :: delKey k rest from by
        simp [delKey, hq]]
      simp only [findVal]
      split
      · rfl
      · exact ih

theorem delKey_of_findVal_none {k : String} {l : List (String × Doc)}
    (h : findVal k l = none) : delKey k l = l := by
  induction l with
  | nil => simp [delKey]
  | cons q rest ih =>
    obtain ⟨kq, vq⟩ := q
    simp only [findVal] at h
    split at h
    · cases h
    · rename_i hne
      rw [show delKey k ((kq, vq) :: rest) = (kq, vq) :: delKey k rest from by
        simp [delKey, hne], ih h]

theorem delKey_idem (k : String) (l : List (String × Doc)) :
    delKey k (delKey k l) = delKey k l :=
  delKey_of_findVal_none (findVal_delKey_self k l)

theorem findVal_setVal_self {k : String} {l : List (String × Doc)} (w : Doc)
    (h : (findVal k l).isSome) : findVal k (setVal k w l) = some w := by
  induction l with
  | nil => simp [findVal] at h
  | cons q rest ih =>
    obtain ⟨kq, vq⟩ := q
    simp only [findVal] at h
    by_cases hq : kq = k
    · simp [setVal, hq, findVal]
    · rw [if_neg hq] at h
      simp only [setVal, if_neg hq, findVal, if_neg hq]
      exact ih h

theorem findVal_setVal_ne {k k' : String} (h : k' ≠ k) (w : Doc)
    (l : List (String × Doc)) :
    findVal k' (setVal k w l) = findVal k' l := by
  induction l with
  | nil => simp [setVal]
  | cons q rest ih =>
    obtain ⟨kq, vq⟩ := q
    by_cases hq : kq = k
    · have hne2 : k ≠ k' := fun hc => h hc.symm
      subst hq
      simp [setVal, findVal, hne2]
    · simp only [setVal, if_neg hq, findVal]
      split
      · rfl
      · exact ih

theorem setVal_setVal (k : String) (v w : Doc) (l : List (String × Doc)) :
    setVal k w (setVal k v l) = setVal k w l := by
  induction l with
  | nil => simp [setVal]
  | cons q rest ih =>
    obtain ⟨kq, vq⟩ := q
    by_cases hq : kq = k
    · simp [setVal, hq]
    · simp [setVal, hq, ih]

theorem mem_dropIfEmptyMap {k : String} {l : List (String × Doc)}
    {q : String × Doc} (h : q ∈ dropIfEmptyMap k l) : q ∈ l := by
  simp only [dropIfEmptyMap] at h
  split at h
  · split at h
    · exact List.mem_of_mem_filter h
    · exact h
  · exact h

theorem dropIfEmptyMap_eq_of_none {k : String} {l : List (String × Doc)}
    (h : findVal k l = none) : dropIfEmptyMap k l = l := by
  simp [dropIfEmptyMap, h]

theorem dropIfEmptyMap_eq_of_keep {k : String} {l : List (String × Doc)} {v : Doc}
    (h : findVal k l = some v) (hc : ¬(v.truthy ∧ jsKeysLen v = 0)) :
    dropIfEmptyMap k l = l := by
  simp [dropIfEmptyMap, h, hc]

theorem dropIfEmptyMap_eq_of_del {k : String} {l : List (String × Doc)} {v : Doc}
    (h : findVal k l = some v) (hc : v.truthy ∧ jsKeysLen v = 0) :
    dropIfEmptyMap k l = delKey k l := by
  simp [dropIfEmptyMap, h, hc]

theorem findVal_dropIfEmptyMap_ne {k k' : String} (h : k' ≠ k)
    (l : List (String × Doc)) :
    findVal k' (dropIfEmptyMap k l) = findVal k' l := by
  simp only [dropIfEmptyMap]
  split
  · split
    · exact findVal_delKey_ne h l
    · rfl
  · rfl

theorem dropIfEmptyMap_idem (k : String) (l : List (String × Doc)) :
    dropIfEmptyMap k (dropIfEmptyMap k l) = dropIfEmptyMap k l := by
  cases hv : findVal k l with
  | none =>
    have h0 := dropIfEmptyMap_eq_of_none hv
    rw [h0]
    exact h0
  | some v =>
    by_cases hc : v.truthy ∧ jsKeysLen v = 0
    · rw [dropIfEmptyMap_eq_of_del hv hc]
      exact dropIfEmptyMap_eq_of_none (findVal_delKey_self k l)
    · have h0 := dropIfEmptyMap_eq_of_keep hv hc
      rw [h0]
      exact h0

theorem dropIfEmptyMap_stable {k k' : String} {l : List (String × Doc)}
    (hZ : dropIfEmptyMap k l = l) (hne : k' ≠ k) :
    dropIfEmptyMap k (dropIfEmptyMap k' l) = dropIfEmptyMap k' l := by
  cases hv : findVal k l with
  | none =>
    exact dropIfEmptyMap_eq_of_none (by
      rw [findVal_dropIfEmptyMap_ne (fun h => hne h.symm), hv])
  | some v =>
    by_cases hc : v.truthy ∧ jsKeysLen v = 0
    · exfalso
      rw [dropIfEmptyMap_eq_of_del hv hc] at hZ
      have h1 := findVal_delKey_self k l
      rw [hZ, hv] at h1
      cases h1
    · exact dropIfEmptyMap_eq_of_keep (v := v) (by
        rw [findVal_dropIfEmptyMap_ne (fun h => hne h.symm), hv]) hc

theorem metaStrip_idem (m : Doc) : metaStrip (metaStrip m) = metaStrip m := by
  simp only [metaStrip, spreadFields]
  have hsub : ∀ q ∈ dropIfEmptyMap "labels" (dropIfEmptyMap "annotations"
      ((spreadFields m).filter (fun p => p.1 ∉ metaBanned))),
      q ∈ (spreadFields m).filter (fun p => p.1 ∉ metaBanned) :=
    fun q hq => mem_dropIfEmptyMap (mem_dropIfEmptyMap hq)
  rw [List.filter_eq_self.mpr (fun q hq => by
    have := List.of_mem_filter (hsub q hq)
    simpa using this)]
  rw [dropIfEmptyMap_stable
    (dropIfEmptyMap_idem "annotations" _) (by decide),
    dropIfEmptyMap_idem]

theorem metaStrip_truthy_objLike (m : Doc) :
    (metaStrip m).truthy = true ∧ (metaStrip m).objLike = true := by
  simp [metaStrip, Doc.truthy, Doc.objLike]

theorem cleanManifest_eq_of_none {fs : List (String × Doc)} {d : Doc}
    (hfs : delKey "status" (spreadFields d) = fs)
    (h : findVal "metadata" fs = none) : cleanManifest d = .obj fs := by
  simp [cleanManifest, hfs, h]

theorem cleanManifest_eq_of_plain {fs : List (String × Doc)} {d m : Doc}
    (hfs : delKey "status" (spreadFields d) = fs)
    (h : findVal "metadata" fs = some m) (hc : ¬(m.truthy ∧ m.objLike)) :
    cleanManifest d = .obj fs := by
  simp [cleanManifest, hfs, h, hc]

theorem cleanManifest_eq_of_objLike {fs : List (String × Doc)} {d m : Doc}
    (hfs : delKey "status" (spreadFields d) = fs)
    (h : findVal "metadata" fs = some m) (hc : m.truthy ∧ m.objLike) :
    cleanManifest d = .obj (setVal "metadata" (metaStrip m) fs) := by
  simp [cleanManifest, hfs, h, hc]

theorem cleanManifest_idem : ∀ d : Doc, cleanManifest (cleanManifest d) = cleanManifest d := by
  intro d
  cases hm : findVal "metadata" (delKey "status" (spreadFields d)) with
  | none =>
    rw [cleanManifest_eq_of_none rfl hm]
    have hst : delKey "status" (spreadFields (Doc.obj
        (delKey "status" (spreadFields d)))) =
        delKey "status" (spreadFields d) := by
      simp only [spreadFields]
      exact delKey_idem _ _
    exact cleanManifest_eq_of_none hst hm
  | some m =>
    by_cases hc : m.truthy ∧ m.objLike
    · rw [cleanManifest_eq_of_objLike rfl hm hc]
      have hst : delKey "status" (spreadFields (Doc.obj
          (setVal "metadata" (metaStrip m) (delKey "status" (spreadFields d))))) =
          setVal "metadata" (metaStrip m) (delKey "status" (spreadFields d)) := by
        simp only [spreadFields]
        refine delKey_of_findVal_none ?_
        rw [findVal_setVal_ne (by decide), findVal_delKey_self]
      have hm2 : findVal "metadata"
          (setVal "metadata" (metaStrip m) (delKey "status" (spreadFields d))) =
          some (metaStrip m) :=
        findVal_setVal_self _ (by rw [hm]; rfl)
      rw [cleanManifest_eq_of_objLike hst hm2 (by
        have := metaStrip_truthy_objLike m
        exact ⟨this.1, this.2⟩)]
      rw [metaStrip_idem, setVal_setVal]
    · rw [cleanManifest_eq_of_plain rfl hm hc]
      have hst : delKey "status" (spreadFields (Doc.obj
          (delKey "status" (spreadFields d)))) =
          delKey "status" (spreadFields d) := by
        simp only [spreadFields]
        exact delKey_idem _ _
      exact cleanManifest_eq_of_plain hst hm hc

theorem findVal_filter_none {p : String × Doc → Bool} {k : String}
    (hp : ∀ v : Doc, p (k, v) = false) :
    ∀ l : List (String × Doc), findVal k (l.filter p) = none := by
  intro l
  induction l with
  | nil => simp [findVal]
  | cons q rest ih =>
    obtain ⟨kq, vq⟩ := q
    by_cases hq : p (kq, vq) = true
    · rw [List.filter_cons_of_pos hq]
      have hne : kq ≠ k := by
        intro hc
        subst hc
        rw [hp vq] at hq
        cases hq
      rw [findVal, if_neg hne]
      exact ih
    · rw [List.filter_cons_of_neg (by simpa using hq)]
      exact ih

theorem findVal_annotStrip_one (l : List (String × Doc)) :
    findVal "kubectl.kubernetes.io/last-applied-configuration" (annotStrip l) = none := by
  refine findVal_filter_none (fun v => ?_) l
  simp

theorem findVal_annotStrip_two (l : List (String × Doc)) :
    findVal "deployment.kubernetes.io/revision" (annotStrip l) = none := by
  refine findVal_filter_none (fun v => ?_) l
  simp

theorem stripOKList_cleanList :
    ∀ xs : List Doc, (∀ x ∈ xs, stripOK (cleanForDiff x) = true) →
      stripOKList (cleanList xs) = true := by
  intro xs
  induction xs with
  | nil => intro _; simp [cleanList, stripOKList]
  | cons x rest ih =>
    intro h
    simp only [cleanList, stripOKList, Bool.and_eq_true]
    exact ⟨h x (by simp), ih (fun z hz => h z (by simp [hz]))⟩

theorem stripOKFields_cleanFields :
    ∀ fs : List (String × Doc),
      (∀ q ∈ fs, stripOK (cleanForDiff q.2) = true) →
      stripOKFields (cleanFields fs) = true := by
  intro fs
  induction fs with
  | nil => intro _; simp [cleanFields, stripOKFields]
  | cons q rest ih =>
    intro h
    obtain ⟨k, v⟩ := q
    have hrest := ih (fun z hz => h z (by simp [hz]))
    by_cases h1 : k ∈ diffBanned
    · rw [cleanFields_cons_banned h1]
      exact hrest
    · by_cases h2 : k = "annotations" ∧ v.objLike
      · obtain ⟨hkeq, hobj⟩ := h2
        subst hkeq
        by_cases h3 : (annotStrip (spreadFields v)).isEmpty
        · rw [cleanFields_cons_annot_empty h1 ⟨rfl, hobj⟩ h3]
          exact hrest
        · rw [cleanFields_cons_annot h1 ⟨rfl, hobj⟩ h3]
          simp [stripOKFields, annotOK, hrest, h3, Doc.objLike,
            findVal_annotStrip_one, findVal_annotStrip_two, h1]
      · by_cases h3 : v = .nul
        · subst h3
          rw [cleanFields_cons_nul h1 h2]
          exact hrest
        · rw [cleanFields_cons_general h1 h2 h3]
          have hcond : ¬(k = "annotations" ∧ (cleanForDiff v).objLike) := by
            rw [objLike_cleanForDiff]
            exact h2
          have hne : cleanForDiff v ≠ .nul := by
            rw [Ne, cleanForDiff_eq_nul_iff]
            exact h3
          simp only [stripOKFields, Bool.and_eq_true, decide_eq_true_eq]
          refine ⟨⟨⟨h1, hne⟩, ?_⟩, hrest⟩
          rw [if_neg hcond]
          exact h (k, v) (by simp)

theorem stripOK_cleanForDiff : ∀ d : Doc, stripOK (cleanForDiff d) = true := by
  intro d
  induction d using Doc.strongOn with
  | h d ih =>
    cases d with
    | arr xs =>
      simp only [cleanForDiff, stripOK]
      exact stripOKList_cleanList xs (fun x hx =>
        ih x (by have := List.sizeOf_lt_of_mem hx; simp; omega))
    | obj fs =>
      simp only [cleanForDiff, stripOK]
      exact stripOKFields_cleanFields fs (fun q hq =>
        ih q.2 (by
          have := List.sizeOf_lt_of_mem hq
          obtain ⟨a, b⟩ := q
          simp at this ⊢
          omega))
    | nul => simp [cleanForDiff, stripOK]
    | bool b => simp [cleanForDiff, stripOK]
    | num n => simp [cleanForDiff, stripOK]
    | str s => simp [cleanForDiff, stripOK]

theorem cleanFields_preserves_empty_labels :
    ∀ fs : List (String × Doc), ("labels", Doc.obj []) ∈ fs →
      ("labels", Doc.obj []) ∈ cleanFields fs := by
  intro fs
  induction fs with
  | nil => intro h; cases h
  | cons q rest ih =>
    intro h
    obtain ⟨k, v⟩ := q
    rcases List.mem_cons.mp h with heq | hmem
    · injection heq with e1 e2
      subst e1
      subst e2
      rw [cleanFields_cons_general (by decide) (by decide) (by simp)]
      simp [cleanForDiff, cleanFields]
    · have hrest := ih hmem
      by_cases h1 : k ∈ diffBanned
      · rw [cleanFields_cons_banned h1]; exact hrest
      · by_cases h2 : k = "annotations" ∧ v.objLike
        · obtain ⟨hkeq, hobj⟩ := h2
          subst hkeq
          by_cases h3 : (annotStrip (spreadFields v)).isEmpty
          · rw [cleanFields_cons_annot_empty h1 ⟨rfl, hobj⟩ h3]; exact hrest
          · rw [cleanFields_cons_annot h1 ⟨rfl, hobj⟩ h3]
            exact List.mem_cons_of_mem _ hrest
        · by_cases h3 : v = .nul
          · subst h3
            rw [cleanFields_cons_nul h1 h2]; exact hrest
          · rw [cleanFields_cons_general h1 h2 h3]
            exact List.mem_cons_of_mem _ hrest

theorem cleanForDiff_idem : ∀ d : Doc, cleanForDiff (cleanForDiff d) = cleanForDiff d := by
  intro d
  induction d using Doc.strongOn with
  | h d ih =>
    cases d with
    | arr xs =>
      simp only [cleanForDiff]
      rw [cleanList_idem_of xs (fun x hx =>
        ih x (by have := List.sizeOf_lt_of_mem hx; simp; omega))]
    | obj fs =>
      simp only [cleanForDiff]
      rw [cleanFields_idem_of fs (fun q hq =>
        ih q.2 (by
          have := List.sizeOf_lt_of_mem hq
          obtain ⟨a, b⟩ := q
          simp at this ⊢
          omega))]
    | nul => simp [cleanForDiff]
    | bool b => simp [cleanForDiff]
    | num n => simp [cleanForDiff]
    | str s => simp [cleanForDiff]


/-! ### Metadata defaulting and the apply batch -/

theorem findVal_append_of_none {k : String} {l : List (String × Doc)}
    (h : findVal k l = none) (l2 : List (String × Doc)) :
    findVal k (l ++ l2) = findVal k l2 := by
  induction l with
  | nil => simp
  | cons q rest ih =>
    obtain ⟨kq, vq⟩ := q
    simp only [findVal] at h
    split at h
    · cases h
    · rename_i hne
      rw [List.cons_append, findVal, if_neg hne]
      exact ih h

theorem findVal_setProp_self (k : String) (v : Doc) (l : List (String × Doc)) :
    findVal k (setProp k v l) = some v := by
  simp only [setProp]
  split
  · rename_i h
    exact findVal_setVal_self v h
  · rename_i h
    rw [findVal_append_of_none (by
      cases hv : findVal k l
      · rfl
      · rw [hv] at h; simp at h)]
    simp [findVal]

theorem findVal_append_of_some {k : String} {l : List (String × Doc)} {v : Doc}
    (h : findVal k l = some v) (l2 : List (String × Doc)) :
    findVal k (l ++ l2) = some v := by
  induction l with
  | nil => simp [findVal] at h
  | cons q rest ih =>
    obtain ⟨kq, vq⟩ := q
    simp only [findVal] at h
    rw [List.cons_append, findVal]
    split at h
    · rename_i heq
      rw [if_pos heq]
      exact h
    · rename_i hne
      rw [if_neg hne]
      exact ih h

theorem findVal_setProp_ne {k k' : String} (h : k' ≠ k) (v : Doc)
    (l : List (String × Doc)) :
    findVal k' (setProp k v l) = findVal k' l := by
  simp only [setProp]
  split
  · exact findVal_setVal_ne h v l
  · cases hv : findVal k' l with
    | none =>
      rw [findVal_append_of_none hv]
      rw [findVal, if_neg (fun hc => h hc.symm), findVal]
    | some w =>
      rw [findVal_append_of_some hv]

theorem applyBatchGo_good (env : ApplyEnv) (ns : String) (dry : Bool) :
    ∀ ds : List Doc, (∀ d ∈ ds, d ≠ .nul) →
      applyBatchGo env ns dry (ds.map .good) =
        .ok (ds.map (fun d => (applyOne env ns dry d).1),
             ds.flatMap (fun d => (applyOne env ns dry d).2)) := by
  intro ds
  induction ds with
  | nil => intro _; simp [applyBatchGo]
  | cons d ds ih =>
    intro h
    have hd : ¬(d = Doc.nul) := h d (by simp)
    simp only [List.map_cons, applyBatchGo, if_neg hd,
      ih (fun z hz => h z (by simp [hz]))]
    simp

theorem execApplyManifest_good (env : ApplyEnv) (ns : String) (dry : Bool)
    (ds : List Doc) (h : ∀ d ∈ ds, d ≠ .nul) :
    execApplyManifest env ns dry (ds.map .good) =
      .ok ⟨some (.applyResult ⟨ds.map (fun d => (applyOne env ns dry d).1),
        applyLog env ns dry ds, dry⟩), none⟩ := by
  simp only [execApplyManifest, applyBatchGo_good env ns dry ds h, applyLog,
    List.length_map]

/-! ### Claim theorems -/

/-- C1 counterexample: in an apply batch whose second text is malformed
(its parse throws) while the first is processable (it succeeds alone,
first conjunct), the whole `apply_manifest` execution rejects with the
parse error — the batch result does not contain two per-resource
outcomes with the malformed one marked failed, because `yaml.load` runs
outside the per-manifest try. -/
theorem c1_counterexample :
    (execApplyManifest ⟨fun _ => none, fun _ => none, fun _ => none⟩ "default" false
      [.good (.obj [("kind", .str "ConfigMap"),
        ("metadata", .obj [("name", .str "app")])])]).isOk = true ∧
    execApplyManifest ⟨fun _ => none, fun _ => none, fun _ => none⟩ "default" false
      [.good (.obj [("kind", .str "ConfigMap"),
        ("metadata", .obj [("name", .str "app")])]),
       .bad "unexpected end of the stream"] =
      .error "unexpected end of the stream" := by
  constructor
  · rw [show [ManifestInput.good (.obj [("kind", .str "ConfigMap"),
        ("metadata", .obj [("name", .str "app")])])] =
      ([(.obj [("kind", .str "ConfigMap"),
        ("metadata", .obj [("name", .str "app")])] : Doc)]).map .good from rfl,
      execApplyManifest_good _ _ _ _ (by simp)]
    rfl
  · simp [execApplyManifest, applyBatchGo, applyOne, Doc.isScalar]

/-- C1 (amended): when every text in the batch parses to a non-null
document, the outcomes are computed independently — the batch result
holds exactly one outcome per manifest, the i-th being identical to the
outcome of processing that manifest alone — so an exception in one
manifest's read/create/patch never aborts the others; an unparsable
text, by contrast, rejects the whole command (see the counterexample). -/
theorem c1_batch_isolation :
    ∀ (env : ApplyEnv) (ns : String) (dry : Bool) (ds : List Doc),
      (∀ d ∈ ds, d ≠ .nul) →
      execApplyManifest env ns dry (ds.map .good) =
        .ok ⟨some (.applyResult ⟨ds.map (fun d => (applyOne env ns dry d).1),
          applyLog env ns dry ds, dry⟩), none⟩ ∧
      ∀ d ∈ ds, execApplyManifest env ns dry [.good d] =
        .ok ⟨some (.applyResult ⟨[(applyOne env ns dry d).1],
          applyLog env ns dry [d], dry⟩), none⟩ := by
  intro env ns dry ds h
  refine ⟨execApplyManifest_good env ns dry ds h, fun d hd => ?_⟩
  have h1 := execApplyManifest_good env ns dry [d] (by
    intro z hz
    rw [List.mem_singleton.mp hz]
    exact h d hd)
  simpa using h1

/-- Witness for C1 (amended) at a concrete batch. -/
theorem c1_witness :
    (execApplyManifest ⟨fun _ => none, fun _ => none, fun _ => none⟩ "ns" false
      [.good (.obj [("kind", .str "ConfigMap")])]).isOk = true := by
  have h := c1_batch_isolation ⟨fun _ => none, fun _ => none, fun _ => none⟩
    "ns" false [(.obj [("kind", .str "ConfigMap")] : Doc)] (by simp)
  rw [show [ManifestInput.good (.obj [("kind", .str "ConfigMap")])] =
    ([(.obj [("kind", .str "ConfigMap")] : Doc)]).map .good from rfl, h.1]
  rfl

/-- C2 counterexample: with a submission transport whose fetch rejects,
a command whose execution succeeded makes TWO submission attempts — the
completed one, then a second failed one issued by the catch around the
awaited `submitResult` — so more than one result is submitted for one
command, and the two carry contradicting statuses. -/
theorem c2_counterexample :
    handleCommand ⟨fun _ => some "ECONNRESET"⟩ "cmd-1"
      (.ok ⟨some (.plain "r"), none⟩) =
      [⟨"cmd-1", .completed, some (.plain "r"), none⟩,
       ⟨"cmd-1", .failed, none, some "ECONNRESET"⟩] := rfl

/-- C2 (amended): when the submission transport accepts the submission,
exactly one result is submitted per command, with the command's id and a
completed/failed status, and per-item failures inside an all-parsed
apply batch are folded into that single completed result's payload; in
general a command makes one or two submission attempts — two exactly
when the execution resolved but its first submission was rejected, the
second attempt then carrying status failed. -/
theorem c2_one_result_amended :
    (∀ (tr : SubmitEnv) (cmdId : String) (exec : Except String CmdOutcome),
      (∀ s, tr.submitFn s = none) →
      (handleCommand tr cmdId exec).length = 1 ∧
      ∀ s ∈ handleCommand tr cmdId exec,
        s.commandId = cmdId ∧ (s.status = .completed ∨ s.status = .failed)) ∧
    (∀ (tr : SubmitEnv) (env : ApplyEnv) (ns : String) (dry : Bool)
      (ds : List Doc) (cmdId : String),
      (∀ s, tr.submitFn s = none) →
      (∀ d ∈ ds, d ≠ .nul) →
      handleCommand tr cmdId (execApplyManifest env ns dry (ds.map .good)) =
        [⟨cmdId, .completed,
          some (.applyResult ⟨ds.map (fun d => (applyOne env ns dry d).1),
            applyLog env ns dry ds, dry⟩), none⟩]) ∧
    (∀ (tr : SubmitEnv) (cmdId : String) (exec : Except String CmdOutcome),
      1 ≤ (handleCommand tr cmdId exec).length ∧
      (handleCommand tr cmdId exec).length ≤ 2 ∧
      (∀ s ∈ handleCommand tr cmdId exec,
        s.commandId = cmdId ∧ (s.status = .completed ∨ s.status = .failed)) ∧
      ((handleCommand tr cmdId exec).length = 2 →
        ∃ o emsg, exec = .ok o ∧
          (handleCommand tr cmdId exec).getLast? =
            some ⟨cmdId, .failed, none, some emsg⟩)) := by
  refine ⟨?_, ?_, ?_⟩
  · intro tr cmdId exec htr
    cases exec with
    | error msg => exact ⟨rfl, by simp [handleCommand]⟩
    | ok o =>
      constructor
      · simp [handleCommand, htr]
      · intro s hs
        simp only [handleCommand, htr, List.mem_singleton] at hs
        subst hs
        split <;> simp
  · intro tr env ns dry ds cmdId htr hds
    rw [execApplyManifest_good env ns dry ds hds]
    simp [handleCommand, truthyErr, htr]
  · intro tr cmdId exec
    cases exec with
    | error msg =>
      refine ⟨by simp [handleCommand], by simp [handleCommand], ?_, ?_⟩
      · intro s hs
        simp only [handleCommand, List.mem_singleton] at hs
        subst hs
        simp
      · intro hlen
        simp [handleCommand] at hlen
    | ok o =>
      cases hs : tr.submitFn (if truthyErr o.error then
          (⟨cmdId, .failed, none, o.error⟩ : Submission)
        else ⟨cmdId, .completed, o.result, none⟩) with
      | none =>
        refine ⟨by simp [handleCommand, hs], by simp [handleCommand, hs], ?_, ?_⟩
        · intro s hmem
          simp only [handleCommand, hs, List.mem_singleton] at hmem
          subst hmem
          split <;> simp
        · intro hlen
          simp [handleCommand, hs] at hlen
      | some emsg =>
        refine ⟨by simp [handleCommand, hs], by simp [handleCommand, hs], ?_, ?_⟩
        · intro s hmem
          simp only [handleCommand, hs, List.mem_cons, List.mem_singleton] at hmem
          rcases hmem with hmem | hmem | hmem
          · subst hmem
            split <;> simp
          · subst hmem
            simp
          · cases hmem
        · intro _
          exact ⟨o, emsg, rfl, by simp [handleCommand, hs]⟩

/-- Witness for C2 (amended) at a concrete command with an accepting
transport. -/
theorem c2_witness :
    (handleCommand ⟨fun _ => none⟩ "cmd-1"
      (execApplyManifest ⟨fun _ => none, fun _ => none, fun _ => none⟩
        "ns" false ([(.obj [("kind", .str "ConfigMap")] : Doc)].map .good))).length
      = 1 := by
  rw [c2_one_result_amended.2.1 ⟨fun _ => none⟩
    ⟨fun _ => none, fun _ => none, fun _ => none⟩
    "ns" false [(.obj [("kind", .str "ConfigMap")] : Doc)] "cmd-1"
    (fun _ => rfl) (by simp)]
  rfl

/-- C3: the structural diff of a document against itself — or against any
deep-value-equal document — produces an empty change plan. -/
theorem c3_diff_noop :
    (∀ (X : Doc) (p : String), deepDiff X X p = []) ∧
    (∀ (X Y : Doc) (p : String), jsonEq X Y = true → deepDiff X Y p = []) :=
  ⟨deepDiff_self, jsonEq_deepDiff⟩

/-- Witness for C3: two value-equal documents with reordered fields. -/
theorem c3_witness :
    jsonEq (.obj [("a", .num 1), ("b", .str "x")])
      (.obj [("b", .str "x"), ("a", .num 1)]) = true ∧
    deepDiff (.obj [("a", .num 1), ("b", .str "x")])
      (.obj [("b", .str "x"), ("a", .num 1)]) "" = [] := by
  have hj : jsonEq (.obj [("a", .num 1), ("b", .str "x")])
      (.obj [("b", .str "x"), ("a", .num 1)]) = true := by
    simp [jsonEq, jsonEqList, jsonEqKeys, keyUnion, keysOf, addKey, findVal]
  exact ⟨hj, c3_diff_noop.2 _ _ "" hj⟩

/-- C4: both cleaning functions are idempotent — applying the
field-cleaning rule twice yields the same document as applying it
once, for the diff cleaning and the manifest-export cleaning. -/
theorem c4_cleaning_idempotent :
    (∀ X : Doc, cleanForDiff (cleanForDiff X) = cleanForDiff X) ∧
    (∀ X : Doc, cleanManifest (cleanManifest X) = cleanManifest X) :=
  ⟨cleanForDiff_idem, cleanManifest_idem⟩

/-- C5: for a pair of documents that differ only in the value of one
scalar field, the change plan contains exactly one modify line, at that
field's dotted/bracketed path, showing both rendered values. -/
theorem c5_single_scalar_modify :
    ∀ (X Y : Doc) (q : String) (a b : Doc),
      OneScalarChange "" X Y q a b →
      deepDiff X Y "" =
        ["~ " ++ q ++ ": " ++ formatValue a ++ " → " ++ formatValue b] :=
  fun _ _ _ _ _ h => oneScalarChange_diff h

/-- Witness for C5: two deployments differing only in `spec.replicas`. -/
theorem c5_witness :
    deepDiff
      (.obj [("kind", .str "Deployment"), ("spec", .obj [("replicas", .num 1)])])
      (.obj [("kind", .str "Deployment"), ("spec", .obj [("replicas", .num 2)])])
      "" = ["~ spec.replicas: 1 → 2"] := by
  have hrel : OneScalarChange ""
      (.obj [("kind", .str "Deployment"), ("spec", .obj [("replicas", .num 1)])])
      (.obj [("kind", .str "Deployment"), ("spec", .obj [("replicas", .num 2)])])
      "spec.replicas" (.num 1) (.num 2) :=
    OneScalarChange.inObj "" [("kind", Doc.str "Deployment")] "spec"
      (Doc.obj [("replicas", Doc.num 1)]) (Doc.obj [("replicas", Doc.num 2)]) []
      "spec.replicas" (Doc.num 1) (Doc.num 2)
      (by simp [keysOf])
      (OneScalarChange.inObj (pathExt "" "spec") [] "replicas"
        (Doc.num 1) (Doc.num 2) [] "spec.replicas" (Doc.num 1) (Doc.num 2)
        (by simp [keysOf])
        (OneScalarChange.here (pathExt (pathExt "" "spec") "replicas")
          (Doc.num 1) (Doc.num 2) rfl rfl (by simp)))
  rw [c5_single_scalar_modify _ _ _ _ _ hrel]
  simp only [formatValue]
  rfl

/-- C6 counterexample: an empty `labels` map inside `metadata` is not
dropped by the diff cleaning — `cleanForDiff` leaves the document
unchanged, contradicting the claim that empty label maps are dropped
entirely. -/
theorem c6_counterexample :
    cleanForDiff (.obj [("metadata", .obj [("labels", .obj [])])]) =
      .obj [("metadata", .obj [("labels", .obj [])])] := by
  simp [cleanForDiff, cleanFields, diffBanned, Doc.objLike]

/-- C6 (amended): the diff cleaning strips the seven server-managed keys
and all null values at every object level outside annotations values,
drops the two auto-injected annotation keys, and keeps an `annotations`
entry only when nonempty — but an empty `labels` map is retained (only
the manifest-export cleaning drops empty labels). -/
theorem c6_clean_strips :
    (∀ d : Doc, stripOK (cleanForDiff d) = true) ∧
    (∀ fs : List (String × Doc), ("labels", Doc.obj []) ∈ fs →
      ("labels", Doc.obj []) ∈ cleanFields fs) :=
  ⟨stripOK_cleanForDiff, cleanFields_preserves_empty_labels⟩

/-- Witness for C6 at a concrete field list. -/
theorem c6_witness :
    ("labels", Doc.obj []) ∈ cleanFields [("labels", Doc.obj [])] :=
  c6_clean_strips.2 _ (by simp)

/-- C7 counterexample: a manifest whose `metadata` is an object without a
`name` gets the namespace injected but no placeholder name — the
defaulting replaces metadata only when it is absent or not an object. -/
theorem c7_counterexample :
    defaultMetadata (.obj [("kind", .str "ConfigMap"), ("metadata", .obj [])])
      "prod" =
      .obj [("kind", .str "ConfigMap"),
        ("metadata", .obj [("namespace", .str "prod")])] := by
  rfl

/-- C7 (amended): before the read/create/patch attempt, a missing
`metadata.namespace` on an object-valued `metadata` is filled from the
command payload and the existing `name` key (present or absent) is left
untouched; the `unnamed` placeholder (together with the namespace) is
installed only when `metadata` is absent. -/
theorem c7_metadata_defaulting :
    (∀ (fs ms : List (String × Doc)) (ns : String),
      findVal "metadata" fs = some (.obj ms) →
      findVal "namespace" ms = none →
      jsProp (defaultMetadata (.obj fs) ns) "metadata" =
        some (.obj (setProp "namespace" (.str ns) ms)) ∧
      findVal "name" (setProp "namespace" (.str ns) ms) = findVal "name" ms) ∧
    (∀ (fs : List (String × Doc)) (ns : String),
      findVal "metadata" fs = none →
      jsProp (defaultMetadata (.obj fs) ns) "metadata" =
        some (.obj [("name", .str "unnamed"), ("namespace", .str ns)])) ∧
    (∀ (fs : List (String × Doc)) (m : Doc) (ns : String),
      findVal "metadata" fs = some m → m.isScalar = true →
      jsProp (defaultMetadata (.obj fs) ns) "metadata" =
        some (.obj [("name", .str "unnamed"), ("namespace", .str ns)])) := by
  refine ⟨?_, ?_, ?_⟩
  · intro fs ms ns hm hns
    constructor
    · simp only [defaultMetadata, hm, hns, jsProp]
      exact findVal_setProp_self _ _ _
    · exact findVal_setProp_ne (by decide) _ _
  · intro fs ns hm
    simp [defaultMetadata, hm, jsProp, optProp, findVal, Doc.truthy,
      setProp, setVal, findVal_append_of_none hm]
  · intro fs m ns hm hsc
    have hset : findVal "metadata" (setVal "metadata"
        (Doc.obj [("name", Doc.str "unnamed"), ("namespace", Doc.str ns)]) fs) =
        some (Doc.obj [("name", Doc.str "unnamed"), ("namespace", Doc.str ns)]) :=
      findVal_setVal_self _ (by rw [hm]; rfl)
    cases m with
    | arr xs => simp [Doc.isScalar] at hsc
    | obj ms => simp [Doc.isScalar] at hsc
    | nul => simp [defaultMetadata, hm, jsProp, optProp, findVal, Doc.truthy,
        setProp, setVal, hset]
    | bool b => simp [defaultMetadata, hm, jsProp, optProp, findVal, Doc.truthy,
        setProp, setVal, hset]
    | num n => simp [defaultMetadata, hm, jsProp, optProp, findVal, Doc.truthy,
        setProp, setVal, hset]
    | str s => simp [defaultMetadata, hm, jsProp, optProp, findVal, Doc.truthy,
        setProp, setVal, hset]

/-- Witness for C7 at a concrete manifest. -/
theorem c7_witness :
    jsProp (defaultMetadata
      (.obj [("metadata", .obj [("name", .str "app")])]) "prod") "metadata" =
      some (.obj [("name", .str "app"), ("namespace", .str "prod")]) := by
  have h := (c7_metadata_defaulting.1 [("metadata", .obj [("name", .str "app")])]
    [("name", .str "app")] "prod" (by simp [findVal]) (by simp [findVal])).1
  rw [h]
  rfl

/-- C8 counterexample: an HTTP error status from the poll endpoint incurs
no backoff delay — `poll()` returns null for it, so the loop treats it
exactly like a clean "no command" and re-polls immediately,
contradicting the claim that it is a backoff-delayed transport failure. -/
theorem c8_counterexample :
    loopIterDelay (.httpError 500) = 0 ∧
    pollResult (.httpError 500) = .ok none :=
  ⟨rfl, rfl⟩

/-- C8 (amended): only a thrown poll transport error (network failure or
unreadable body) triggers the fixed 3000 ms backoff before the next
polling attempt; a clean "no command" response — and likewise a non-ok
HTTP status, which `poll()` converts to null — incurs no delay. -/
theorem c8_error_backoff :
    (∀ msg : String, loopIterDelay (.transportError msg) = 3000) ∧
    loopIterDelay .noCommand = 0 ∧
    (∀ s : Nat, loopIterDelay (.httpError s) = 0) ∧
    (∀ s : Nat, pollResult (.httpError s) = pollResult .noCommand) :=
  ⟨fun _ => rfl, rfl, fun _ => rfl, fun _ => rfl⟩

/-- C10: a requested (kind, name) pair whose kind is outside the 11-kind
catalog contributes no document and no error — the blob equals the blob
over the catalog-only requests — indistinguishably from a pair whose
fetch fails; and the command still completes successfully with a single
completed result. -/
theorem c10_unknown_kinds :
    (∀ (env : GetEnv) (dump : Doc → String) (reqs : List (String × String)),
      getManifestsDocs env dump reqs =
        getManifestsDocs env dump (reqs.filter (fun r => r.1 ∈ catalogKinds))) ∧
    (∀ (env : GetEnv) (dump : Doc → String) (kind name : String)
      (rest : List (String × String)) (msg : String),
      env.fetchFn kind name = .error msg →
      getManifestsDocs env dump ((kind, name) :: rest) =
        getManifestsDocs env dump rest) ∧
    (∀ (env : GetEnv) (dump : Doc → String) (reqs : List (String × String))
      (cmdId : String),
      runReport cmdId (.ok (execGetManifests env dump reqs)) =
        [⟨cmdId, .completed, some (.manifestsBlob (String.intercalate "---\n"
          (getManifestsDocs env dump reqs))), none⟩]) := by
  refine ⟨?_, ?_, ?_⟩
  · intro env dump reqs
    induction reqs with
    | nil => simp
    | cons r rest ih =>
      obtain ⟨kind, name⟩ := r
      by_cases hk : kind ∈ catalogKinds
      · rw [List.filter_cons_of_pos (by simpa using hk)]
        simp only [getManifestsDocs, if_pos hk]
        rw [ih]
      · rw [List.filter_cons_of_neg (by simpa using hk)]
        simp only [getManifestsDocs, if_neg hk]
        rw [ih]
        simp
  · intro env dump kind name rest msg herr
    by_cases hk : kind ∈ catalogKinds
    · simp only [getManifestsDocs, if_pos hk, herr]
      simp
    · simp only [getManifestsDocs, if_neg hk]
      simp
  · intro env dump reqs cmdId
    simp [runReport, execGetManifests, truthyErr]

/-- Witness for C10: a non-catalog kind and a failing catalog fetch both
vanish from the blob. -/
theorem c10_witness :
    getManifestsDocs ⟨fun _ _ => .error "nope"⟩ (fun _ => "")
      [("Pod", "p"), ("Deployment", "d")] = [] := by
  have h1 := c10_unknown_kinds.1 ⟨fun _ _ => .error "nope"⟩ (fun _ => "")
    [("Pod", "p"), ("Deployment", "d")]
  have h2 := c10_unknown_kinds.2.1 ⟨fun _ _ => .error "nope"⟩ (fun _ => "")
    "Deployment" "d" [] "nope" rfl
  calc getManifestsDocs ⟨fun _ _ => .error "nope"⟩ (fun _ => "")
        [("Pod", "p"), ("Deployment", "d")]
      = getManifestsDocs ⟨fun _ _ => .error "nope"⟩ (fun _ => "")
        ([("Pod", "p"), ("Deployment", "d")].filter (fun r => r.1 ∈ catalogKinds)) := h1
    _ = getManifestsDocs ⟨fun _ _ => .error "nope"⟩ (fun _ => "")
        [("Deployment", "d")] := by rfl
    _ = getManifestsDocs ⟨fun _ _ => .error "nope"⟩ (fun _ => "") [] := h2
    _ = [] := rfl

/-- C9 counterexample: a key named `status` nested inside an
`annotations` value survives the diff cleaning untouched — the
annotations branch copies the map without recursing — contradicting the
claim that such keys are removed at every nesting level. -/
theorem c9_counterexample :
    cleanForDiff (.obj [("annotations",
      .obj [("nested", .obj [("status", .str "s")])])]) =
      .obj [("annotations", .obj [("nested", .obj [("status", .str "s")])])] := by
  simp [cleanForDiff, cleanFields, diffBanned, Doc.objLike, annotStrip,
    spreadFields]

/-- C9 (amended): the diff cleaning removes the seven server-managed key
names and every null-valued map entry at every nesting level outside the
verbatim-preserved values of `annotations` entries; in particular a
user-data field merely named `status` (for example a ConfigMap data key)
is stripped and therefore absent from dry-run diffs. -/
theorem c9_clean_strips_everywhere :
    (∀ d : Doc, stripOK (cleanForDiff d) = true) ∧
    cleanForDiff (.obj [("kind", .str "ConfigMap"),
      ("data", .obj [("status", .str "ready"), ("app", .str "x"),
        ("empty", .nul)])]) =
      .obj [("kind", .str "ConfigMap"),
        ("data", .obj [("app", .str "x")])] := by
  refine ⟨stripOK_cleanForDiff, ?_⟩
  simp [cleanForDiff, cleanFields, diffBanned, Doc.objLike]
